import Mathlib

/-!
Verification of the `tail` package (file `tail.go`): an engine that emits the
lines appended to a text file, tolerating file rotation.

Bytes are modelled as natural numbers (`10` = `'\n'`, `13` = `'\r'`).  The
byte buffer `t.buf[0:t.nbytes]` is modelled by its content, a `List ℕ`;
where the capacity of the buffer matters it is carried separately as a
natural number.  Each successful `t.file.Read` is modelled by the chunk of
bytes it returns; a read past the end of the available data returns
`io.EOF` and ends a `readLines` invocation.
-/

/-- Go slice expression `l[a:b]`. -/
def goSlice (l : List ℕ) (a b : ℕ) : List ℕ := (l.drop a).take (b - a)

/-- The scan loop of `readLines` (tail.go lines 109-124): `buf` is the valid
part of the buffer, the loop walks the newly read region, `fuel` many bytes
starting at index `i`; `begPos` is the start of the line being accumulated.
At a `'\n'` it emits `buf[begPos:i]`, with `buf[i-1]` stripped when it is a
`'\r'` (guarded by `i > 0`), and sets `begPos = i+1`.  It returns the emitted
lines and the final `begPos`. -/
def scanNewRegion (buf : List ℕ) : ℕ → ℕ → ℕ → List (List ℕ) × ℕ
  | 0, _, begPos => ([], begPos)
  | fuel + 1, i, begPos =>
    if buf.getD i 0 = 10 then
      let line := if 0 < i ∧ buf.getD (i - 1) 0 = 13
        then goSlice buf begPos (i - 1)
        else goSlice buf begPos i
      let p := scanNewRegion buf fuel (i + 1) (i + 1)
      (line :: p.1, p.2)
    else
      scanNewRegion buf fuel (i + 1) begPos

/-- One iteration of the `readLines` loop after a successful read: the valid
buffer is `pending ++ chunk` where `chunk` is the newly read region; the new
region is scanned and the buffer is compacted to `buf[begPos:]`
(tail.go lines 103-127; when `begPos = 0` the Go code skips the copy, which
leaves the same content). -/
def readChunk (pending chunk : List ℕ) : List (List ℕ) × List ℕ :=
  let buf := pending ++ chunk
  ((scanNewRegion buf chunk.length pending.length 0).1,
   buf.drop (scanNewRegion buf chunk.length pending.length 0).2)

/-- `readLines` (tail.go lines 96-129) at the level of buffer content: each
element of `cs` is the chunk returned by one successful `t.file.Read`; after
the last chunk the read returns `(0, io.EOF)` and `readLines` returns,
keeping the pending partial line in the buffer.  Returns the emitted lines
and the final pending content. -/
def readLines (pending : List ℕ) : List (List ℕ) → List (List ℕ) × List ℕ
  | [] => ([], pending)
  | c :: cs =>
    ((readChunk pending c).1 ++ (readLines (readChunk pending c).2 cs).1,
     (readLines (readChunk pending c).2 cs).2)

/-- Specification-side helper: a trailing `'\r'` of a completed line is
stripped (one byte at most). -/
def stripCR (l : List ℕ) : List ℕ := if l.getLast? = some 13 then l.dropLast else l

/-- Specification-side splitter, following the spec's words: the stream is
split at `'\n'` terminators, each terminator is dropped and a `'\r'`
immediately before it is stripped; `cur` is the partial line accumulated so
far; bytes after the last terminator are returned as the pending partial
line, not as a line. -/
def splitSpec (cur : List ℕ) : List ℕ → List (List ℕ) × List ℕ
  | [] => ([], cur)
  | b :: s =>
    if b = 10 then
      (stripCR cur :: (splitSpec [] s).1, (splitSpec [] s).2)
    else
      splitSpec (cur ++ [b]) s

/-- Buffer growth before a read (tail.go lines 98-102): the buffer capacity
doubles when the buffer is full of valid bytes. -/
def growCap (cap nbytes : ℕ) : ℕ := if cap = nbytes then cap * 2 else cap

/-- Number of bytes one `t.file.Read(t.buf[t.nbytes:])` returns (tail.go
line 104): the free space of the buffer, capped by the bytes available. -/
def readN (cap nbytes remLen : ℕ) : ℕ := min (cap - nbytes) remLen

/-- `readLines` with the buffer capacity made explicit (tail.go lines 96-129).
Each iteration first doubles the buffer when it is full (lines 98-102), then
reads `readN` bytes of the `rem` bytes currently available into the free tail
of the buffer, scans the new region and compacts (`readChunk`); once `rem` is
exhausted the read returns `(0, io.EOF)` and the loop ends.  Returns the
emitted lines, the final pending content and the final capacity.  The
`readN = 0` branch is the degenerate `cap = 0` situation in which the Go loop
would spin reading zero bytes forever; it is unreachable from the real entry
point (`bufInitSize = 2048`). -/
def readLinesBuf (cap : ℕ) (pending rem : List ℕ) : List (List ℕ) × List ℕ × ℕ :=
  if hrem : rem = [] then ([], pending, growCap cap pending.length)
  else if hn : readN (growCap cap pending.length) pending.length rem.length = 0 then
    ([], pending, growCap cap pending.length)
  else
    ((readChunk pending
          (rem.take (readN (growCap cap pending.length) pending.length rem.length))).1
        ++ (readLinesBuf (growCap cap pending.length)
              (readChunk pending
                (rem.take (readN (growCap cap pending.length) pending.length rem.length))).2
              (rem.drop (readN (growCap cap pending.length) pending.length rem.length))).1,
     (readLinesBuf (growCap cap pending.length)
        (readChunk pending
          (rem.take (readN (growCap cap pending.length) pending.length rem.length))).2
        (rem.drop (readN (growCap cap pending.length) pending.length rem.length))).2)
termination_by rem.length
decreasing_by
  all_goals
    simp only [List.length_drop]
    rcases rem with _ | ⟨b, rem⟩
    · exact absurd rfl hrem
    · simp only [List.length_cons] at *
      omega

/-- Errors of the Go code: `io.EOF` is the distinguished end-of-data marker;
`err c` stands for any other non-nil error value. -/
inductive GoErr
  | eof
  | err (code : ℕ)
deriving DecidableEq

/-- Outcome of the reopen retry loop after a rotation (tail.go lines
195-202): either some attempt succeeded and `chunks` are the reads that the
subsequent `readLines` call performs on the new file, or every attempt
failed and `code` identifies the last `openFile` error. -/
inductive ReopenRes
  | failed (code : ℕ)
  | opened (chunks : List (List ℕ))
deriving DecidableEq

/-- One arm of the `select` in the event loop of `runTail` (tail.go lines
175-213): the consumer closed `t.done`; a notification with operation bits
`op` arrived on `t.watcher.Events` (with the data it makes readable); the
`Events` channel closed (`ok = false`); or `t.watcher.Errors` yielded `e`
(`none` models the channel being closed, which in Go delivers a nil error). -/
inductive LoopEvent
  | done
  | fsev (op : ℕ) (writeData : List (List ℕ)) (reopen : ReopenRes)
  | feedClosed
  | werr (e : Option GoErr)
deriving DecidableEq

/-- The event loop of `runTail` (tail.go lines 171-214) together with its
deferred epilogue (lines 134-143).  `pending` is the buffered partial line,
`errv` the current value of the local variable `err`.  The first component
is the sequence of strings sent on `t.Line`, the second the value the
deferred function sends on `t.Error` (`none` when nothing is sent: either
`err == nil` at return, or the trace ends with the loop still running).
Fidelity notes: a `Write` event runs `readLines`, which ends in `io.EOF`
(so `err` holds `io.EOF` afterwards and the loop continues); a `Rename`
event first sends `t.buf[:t.nbytes]` verbatim when `t.nbytes > 0`, resets
`nbytes`, and on a successful reopen runs `readLines` on the new file (the
`t.watcher.Add` return value on line 206 is discarded); when the reopen
loop fails, `err` is the last open error and the worker returns.  Events
whose bits match neither `Write` (2) nor `Rename` (8) — e.g. `Remove` (4),
`Create` (1), `Chmod` (16) — fall through both tests and are ignored. -/
def runTailLoop (pending : List ℕ) (errv : Option GoErr) :
    List LoopEvent → List (List ℕ) × Option GoErr
  | [] => ([], none)
  | .done :: _ => ([], errv)
  | .feedClosed :: _ => ([], errv)
  | .werr e :: _ => ([], e)
  | .fsev op wdata reopen :: rest =>
    if op &&& 2 = 2 then
      ((readLines pending wdata).1
          ++ (runTailLoop (readLines pending wdata).2 (some .eof) rest).1,
       (runTailLoop (readLines pending wdata).2 (some .eof) rest).2)
    else if op &&& 8 = 8 then
      match reopen with
      | .failed c =>
        ((if 0 < pending.length then [pending] else []), some (.err c))
      | .opened chunks =>
        ((if 0 < pending.length then [pending] else [])
            ++ (readLines [] chunks).1
            ++ (runTailLoop (readLines [] chunks).2 (some .eof) rest).1,
         (runTailLoop (readLines [] chunks).2 (some .eof) rest).2)
    else runTailLoop pending errv rest

/-- A `runTail` session from the point where the initial `openFile`
succeeded: the initial drain of the file (line 158, reads `initial`,
ending in `io.EOF`), then `t.watcher.Add` succeeds setting `err = nil`
(line 163), then the event loop runs on `evs`.  Returns the lines sent on
`t.Line` and the value sent on `t.Error`. -/
def runTailModel (initial : List (List ℕ)) (evs : List LoopEvent) :
    List (List ℕ) × Option GoErr :=
  ((readLines [] initial).1 ++ (runTailLoop (readLines [] initial).2 none evs).1,
   (runTailLoop (readLines [] initial).2 none evs).2)

/-- The reopen retry loop after a rotation (tail.go lines 195-202):
`delay, maxDelay := time.Second, 30*time.Second; for delay < maxDelay {
if openFile() == nil break; sleep(delay); delay *= 2 }`.  `opens k` tells
whether the k-th `openFile` call succeeds.  Returns the list of sleep
durations (in seconds) and whether an open succeeded; on `false` the code
then returns with the open error (line 203-205).  The `0 < delay` guard is
only there for termination; the loop is entered with `delay = 1` and
doubling keeps the delay positive, so it never changes the behaviour. -/
def reopenLoop (opens : ℕ → Bool) (k delay : ℕ) : List ℕ × Bool :=
  if h : 0 < delay ∧ delay < 30 then
    if opens k then ([], true)
    else
      let p := reopenLoop opens (k + 1) (delay * 2)
      (delay :: p.1, p.2)
  else ([], false)
termination_by 30 - delay
decreasing_by omega

/-- The reopen retry loop as entered by `runTail`: first attempt is number
0, initial delay 1 second. -/
def reopenBackoff (opens : ℕ → Bool) : List ℕ × Bool := reopenLoop opens 0 1

/-- The fields of `Tail` (tail.go lines 20-30) that `Close` and `IsClosed`
touch: whether the `done` channel is closed, the `watcher` pointer (`some`
= non-nil), and — bookkeeping for the no-double-release property — how many
times `watcher.Close()` has been called. -/
structure Tail where
  done : Bool
  watcher : Option ℕ
  watcherCloseN : ℕ
deriving DecidableEq

/-- `IsClosed` (tail.go lines 57-64): non-blocking observation of the
`done` channel. -/
def Tail.IsClosed (t : Tail) : Bool := t.done

/-- `Close` (tail.go lines 46-54): when not already closed, close `done`,
and when the watcher is non-nil release it and set it to nil. -/
def Tail.Close (t : Tail) : Tail :=
  if t.IsClosed then t
  else
    { done := true
      watcher := none
      watcherCloseN := t.watcherCloseN + if t.watcher.isSome then 1 else 0 }

/-- The operations that touch the scan buffer over a session's life:
a scanner invocation (`readLines` on newly available data, possibly growing
the buffer and compacting it) and a rotation (tail.go lines 187-209: the
pending bytes are flushed, `t.nbytes` is reset to 0, the buffer itself is
kept, and after reopening `readLines` runs on the new file's data). -/
inductive SessionOp
  | scan (data : List ℕ)
  | rotate (newData : List ℕ)

/-- Effect of one `SessionOp` on the buffer state `(pending content,
capacity)`. -/
def applyOp (s : List ℕ × ℕ) : SessionOp → List ℕ × ℕ
  | .scan data => ((readLinesBuf s.2 s.1 data).2.1, (readLinesBuf s.2 s.1 data).2.2)
  | .rotate newData => ((readLinesBuf s.2 [] newData).2.1, (readLinesBuf s.2 [] newData).2.2)

/-- Buffer state after a sequence of session operations, starting from the
fresh session (empty buffer of capacity `cap0`, tail.go line 38). -/
def runOps (cap0 : ℕ) (ops : List SessionOp) : List ℕ × ℕ := ops.foldl applyOp ([], cap0)

/-- Bytes of the string "line 1". -/
def line1B : List ℕ := [108, 105, 110, 101, 32, 49]

/-- Bytes of the string "line 2". -/
def line2B : List ℕ := [108, 105, 110, 101, 32, 50]

/-- Bytes of the string "line 3". -/
def line3B : List ℕ := [108, 105, 110, 101, 32, 51]

example : readLines [] [[97, 10, 98, 13, 10], [99]] = ([[97], [98]], [99]) := by decide
example : splitSpec [] [97, 10, 98, 13, 10, 99] = ([[97], [98]], [99]) := by decide
example : readLines [] [[97, 13], [10, 10]] = ([[97], []], []) := by decide
example : splitSpec [] [97, 13, 10, 10] = ([[97], []], []) := by decide

theorem getD_append_len (front rest : List ℕ) (b : ℕ) :
    (front ++ b :: rest).getD front.length 0 = b := by
  induction front with
  | nil => rfl
  | cons a t ih => simpa using ih

theorem getD_append_lt (front rest : List ℕ) (j : ℕ) (h : j < front.length) :
    (front ++ rest).getD j 0 = front.getD j 0 := by
  induction front generalizing j with
  | nil => simp at h
  | cons a t ih =>
    cases j with
    | zero => rfl
    | succ j =>
      simp only [List.length_cons, Nat.succ_lt_succ_iff] at h
      simpa using ih j h

theorem goSlice_append_front (front chunk : List ℕ) (a : ℕ) (h : a ≤ front.length) :
    goSlice (front ++ chunk) a front.length = front.drop a := by
  unfold goSlice
  rw [List.drop_append_of_le_length h]
  exact List.take_left' (by simp)

theorem goSlice_append_dropLast (front chunk : List ℕ) (a : ℕ) (h : a ≤ front.length) :
    goSlice (front ++ chunk) a (front.length - 1) = (front.drop a).dropLast := by
  unfold goSlice
  rw [List.drop_append_of_le_length h, List.take_append_of_le_length (by simp; omega),
    List.dropLast_eq_take, List.length_drop]
  congr 1
  omega

theorem getLast?_drop_eq (front : List ℕ) (a : ℕ) (h : a < front.length) :
    (front.drop a).getLast? = some (front.getD (front.length - 1) 0) := by
  rw [List.getLast?_eq_getElem?, List.getElem?_drop, List.getD_eq_getElem?_getD,
    List.length_drop]
  have : a + (front.length - a - 1) = front.length - 1 := by omega
  rw [this]
  have hlt : front.length - 1 < front.length := by omega
  simp [List.getElem?_eq_getElem hlt]

/-- Core correspondence between the scan loop and the specification
splitter.  `front` is the part of the buffer already scanned (previous
pending bytes plus the consumed part of the chunk), `begPos` the current
line start inside it; `front.drop begPos` is then the partial line, which
contains no newline, and the byte before `begPos`, when there is one, is a
newline. -/
theorem scanNewRegion_eq_splitSpec (chunk : List ℕ) :
    ∀ (front : List ℕ) (begPos : ℕ),
      begPos ≤ front.length →
      10 ∉ front.drop begPos →
      (begPos = 0 ∨ front.getD (begPos - 1) 0 = 10) →
      (scanNewRegion (front ++ chunk) chunk.length front.length begPos).1
          = (splitSpec (front.drop begPos) chunk).1
        ∧ (front ++ chunk).drop
            (scanNewRegion (front ++ chunk) chunk.length front.length begPos).2
          = (splitSpec (front.drop begPos) chunk).2 := by
  induction chunk with
  | nil =>
    intro front begPos _ _ _
    simp [scanNewRegion, splitSpec]
  | cons b rest ih =>
    intro front begPos hle hno hprev
    have hbuf : front ++ b :: rest = (front ++ [b]) ++ rest := by simp
    have hgetb : (front ++ b :: rest).getD front.length 0 = b := getD_append_len ..
    by_cases hb : b = 10
    · -- a terminator: the code emits the line `buf[begPos:i]`, stripping a
      -- final carriage return, and restarts at `i + 1`
      have hline :
          (if 0 < front.length ∧ (front ++ b :: rest).getD (front.length - 1) 0 = 13
            then goSlice (front ++ b :: rest) begPos (front.length - 1)
            else goSlice (front ++ b :: rest) begPos front.length)
            = stripCR (front.drop begPos) := by
        rcases Nat.lt_or_ge begPos front.length with hlt | hge
        · -- nonempty partial line: the byte before the newline is its last byte
          have hfl : 0 < front.length := by omega
          have hgd : (front ++ b :: rest).getD (front.length - 1) 0
              = front.getD (front.length - 1) 0 := getD_append_lt _ _ _ (by omega)
          have hlast : (front.drop begPos).getLast? = some (front.getD (front.length - 1) 0) :=
            getLast?_drop_eq front begPos hlt
          by_cases hcr : front.getD (front.length - 1) 0 = 13
          · rw [if_pos ⟨hfl, by rw [hgd]; exact hcr⟩, stripCR, if_pos (by rw [hlast, hcr]),
              goSlice_append_dropLast front (b :: rest) begPos hle]
          · rw [if_neg (by rintro ⟨-, h13⟩; rw [hgd] at h13; exact hcr h13), stripCR,
              if_neg (by rw [hlast]; intro hx; exact hcr (Option.some.inj hx)),
              goSlice_append_front front (b :: rest) begPos hle]
        · -- empty partial line (begPos = front.length): the byte before the
          -- newline, if any, is the previous newline, never a carriage return
          have hbeg : begPos = front.length := by omega
          have hdropnil : front.drop begPos = [] := by
            rw [hbeg]; exact List.drop_length front
          rcases Nat.eq_zero_or_pos front.length with hz | hpos
          · rw [if_neg (by rintro ⟨h0, -⟩; omega), goSlice_append_front front (b :: rest) begPos hle,
              hdropnil, stripCR]
            simp
          · have h10 : front.getD (front.length - 1) 0 = 10 := by
              rcases hprev with h0 | hnl
              · omega
              · rwa [hbeg] at hnl
            have hgd : (front ++ b :: rest).getD (front.length - 1) 0
                = front.getD (front.length - 1) 0 := getD_append_lt _ _ _ (by omega)
            rw [if_neg (by rintro ⟨-, h13⟩; rw [hgd, h10] at h13; exact absurd h13 (by norm_num)),
              goSlice_append_front front (b :: rest) begPos hle, hdropnil, stripCR]
            simp
      have ihres := ih (front ++ [10]) (front.length + 1)
        (by simp) (by simp) (Or.inr (by simpa using getD_append_len front [] 10))
      subst hb
      simp only [List.append_assoc, List.cons_append, List.nil_append] at ihres
      have hdrop1 : (front ++ [10]).drop (front.length + 1) = [] := by
        apply List.drop_eq_nil_of_le; simp
      rw [hdrop1] at ihres
      constructor
      · show (scanNewRegion (front ++ 10 :: rest) (rest.length + 1) front.length begPos).1 = _
        rw [scanNewRegion]
        simp only [hgetb, if_pos rfl]
        rw [splitSpec]
        simp only [if_pos rfl]
        refine congrArg₂ _ ?_ ?_
        · simpa using hline
        · simpa [List.length_append] using ihres.1
      · show (front ++ 10 :: rest).drop
            (scanNewRegion (front ++ 10 :: rest) (rest.length + 1) front.length begPos).2 = _
        rw [scanNewRegion]
        simp only [hgetb, if_pos rfl]
        rw [splitSpec]
        simp only [if_pos rfl]
        simpa [List.length_append] using ihres.2
    · -- not a terminator: the loop just advances `i`
      have ihres := ih (front ++ [b]) begPos
        (by simp; omega)
        (by
          rw [List.drop_append_of_le_length hle]
          intro hmem
          rcases List.mem_append.mp hmem with h | h
          · exact hno h
          · simp at h; exact hb h.symm)
        (by
          rcases Nat.eq_zero_or_pos begPos with hz | hpos
          · exact Or.inl hz
          · rcases hprev with h0 | hnl
            · omega
            · exact Or.inr (by
                rw [getD_append_lt front [b] (begPos - 1) (by omega)]
                exact hnl))
      simp only [List.append_assoc, List.cons_append, List.nil_append] at ihres
      have hdropb : (front ++ [b]).drop begPos = front.drop begPos ++ [b] :=
        List.drop_append_of_le_length hle
      rw [hdropb] at ihres
      constructor
      · show (scanNewRegion (front ++ b :: rest) (rest.length + 1) front.length begPos).1 = _
        rw [scanNewRegion]
        simp only [hgetb, if_neg hb]
        rw [splitSpec]
        simp only [if_neg hb]
        simpa [List.length_append] using ihres.1
      · show (front ++ b :: rest).drop
            (scanNewRegion (front ++ b :: rest) (rest.length + 1) front.length begPos).2 = _
        rw [scanNewRegion]
        simp only [hgetb, if_neg hb]
        rw [splitSpec]
        simp only [if_neg hb]
        simpa [List.length_append] using ihres.2

theorem readChunk_eq_splitSpec (pending chunk : List ℕ) (h : 10 ∉ pending) :
    readChunk pending chunk = splitSpec pending chunk := by
  have hmain := scanNewRegion_eq_splitSpec chunk pending 0 (Nat.zero_le _)
    (by simpa using h) (Or.inl rfl)
  simp only [List.drop_zero] at hmain
  unfold readChunk
  exact Prod.ext hmain.1 hmain.2

theorem splitSpec_snd_no_nl (s : List ℕ) :
    ∀ cur, 10 ∉ cur → 10 ∉ (splitSpec cur s).2 := by
  induction s with
  | nil => intro cur h; simpa [splitSpec] using h
  | cons b rest ih =>
    intro cur h
    rw [splitSpec]
    by_cases hb : b = 10
    · rw [if_pos hb]
      exact ih [] (by simp)
    · rw [if_neg hb]
      refine ih (cur ++ [b]) ?_
      intro hmem
      rcases List.mem_append.mp hmem with hm | hm
      · exact h hm
      · simp at hm; exact hb hm.symm

theorem splitSpec_append (s t : List ℕ) :
    ∀ cur,
      splitSpec cur (s ++ t)
        = ((splitSpec cur s).1 ++ (splitSpec (splitSpec cur s).2 t).1,
           (splitSpec (splitSpec cur s).2 t).2) := by
  induction s with
  | nil => intro cur; simp [splitSpec]
  | cons b rest ih =>
    intro cur
    by_cases hb : b = 10
    · simp only [List.cons_append, splitSpec, if_pos hb, List.append_eq, ih []]
    · simp only [List.cons_append, splitSpec, if_neg hb, List.append_eq, ih (cur ++ [b])]

theorem readLines_eq_splitSpec (cs : List (List ℕ)) :
    ∀ pending, 10 ∉ pending →
      readLines pending cs = splitSpec pending cs.flatten := by
  induction cs with
  | nil => intro pending _; simp [readLines, splitSpec]
  | cons c cs ih =>
    intro pending h
    rw [readLines, readChunk_eq_splitSpec pending c h,
      ih (splitSpec pending c).2 (splitSpec_snd_no_nl c pending h),
      List.flatten_cons, splitSpec_append c cs.flatten pending]

/-- C1: for every file byte sequence and every way the underlying reads
chunk it, the lines emitted by `readLines` are exactly the byte sequence
split at `'\n'` terminators, terminator (and a `'\r'` immediately before
it) stripped, in order; the bytes after the last terminator are not
emitted as a line but kept as the pending partial line (so a file ending
exactly at a terminator yields no extra empty line). -/
theorem C1_readLines_splits_like_spec (cs : List (List ℕ)) :
    readLines [] cs = splitSpec [] cs.flatten :=
  readLines_eq_splitSpec cs [] (by simp)

theorem readChunk_snd_length (pending chunk : List ℕ) :
    (readChunk pending chunk).2.length ≤ pending.length + chunk.length := by
  simp only [readChunk, List.length_drop, List.length_append]
  omega

theorem readLinesBuf_eq_splitSpec (cap : ℕ) (pending rem : List ℕ) :
    1 ≤ cap → pending.length ≤ cap → 10 ∉ pending →
      (readLinesBuf cap pending rem).1 = (splitSpec pending rem).1
        ∧ (readLinesBuf cap pending rem).2.1 = (splitSpec pending rem).2 := by
  induction cap, pending, rem using readLinesBuf.induct with
  | case1 cap pending =>
    intro _ _ _
    rw [readLinesBuf]
    simp [splitSpec]
  | case2 cap pending rem hrem hn =>
    intro hc hp hno
    exfalso
    have hrlen : 0 < rem.length := List.length_pos.mpr hrem
    simp only [readN, growCap] at hn
    rcases eq_or_ne cap pending.length with he | he
    · rw [if_pos he] at hn
      omega
    · rw [if_neg he] at hn
      omega
  | case3 cap pending rem hrem hn ih =>
    intro hc hp hno
    set g := growCap cap pending.length with hgdef
    set n := readN g pending.length rem.length with hndef
    have hgfacts : cap ≤ g ∧ 1 ≤ g := by
      rw [hgdef]
      unfold growCap
      split <;> omega
    have hn2 : n ≤ rem.length := by rw [hndef]; exact Nat.min_le_right _ _
    have hn1 : n ≤ g - pending.length := by rw [hndef]; exact Nat.min_le_left _ _
    have hplg : pending.length ≤ g := le_trans hp hgfacts.1
    have htakelen : (rem.take n).length = n := by
      rw [List.length_take]
      omega
    have hsteplen : (readChunk pending (rem.take n)).2.length ≤ g := by
      have h2 := readChunk_snd_length pending (rem.take n)
      rw [htakelen] at h2
      omega
    have hstepeq : readChunk pending (rem.take n) = splitSpec pending (rem.take n) :=
      readChunk_eq_splitSpec pending (rem.take n) hno
    have hstepno : 10 ∉ (readChunk pending (rem.take n)).2 := by
      rw [hstepeq]
      exact splitSpec_snd_no_nl (rem.take n) pending hno
    have ihres := ih hgfacts.2 hsteplen hstepno
    have hsplit := splitSpec_append (rem.take n) (rem.drop n) pending
    rw [List.take_append_drop] at hsplit
    rw [readLinesBuf, dif_neg hrem]
    rw [← hgdef, ← hndef, dif_neg hn]
    constructor
    · show (readChunk pending (rem.take n)).1
          ++ (readLinesBuf g (readChunk pending (rem.take n)).2 (rem.drop n)).1
          = (splitSpec pending rem).1
      rw [hsplit, ihres.1, hstepeq]
    · show (readLinesBuf g (readChunk pending (rem.take n)).2 (rem.drop n)).2.1
          = (splitSpec pending rem).2
      rw [hsplit, ihres.2, hstepeq]

theorem readLinesBuf_inv (cap : ℕ) (pending rem : List ℕ) :
    pending.length ≤ cap →
      (readLinesBuf cap pending rem).2.1.length ≤ (readLinesBuf cap pending rem).2.2
        ∧ ∃ k, (readLinesBuf cap pending rem).2.2 = cap * 2 ^ k := by
  induction cap, pending, rem using readLinesBuf.induct with
  | case1 cap pending =>
    intro hp
    rw [readLinesBuf, dif_pos rfl]
    refine ⟨?_, ?_⟩
    · show pending.length ≤ growCap cap pending.length
      unfold growCap
      split <;> omega
    · show ∃ k, growCap cap pending.length = cap * 2 ^ k
      unfold growCap
      split
      · exact ⟨1, by norm_num⟩
      · exact ⟨0, by norm_num⟩
  | case2 cap pending rem hrem hn =>
    intro hp
    rw [readLinesBuf, dif_neg hrem, dif_pos hn]
    refine ⟨?_, ?_⟩
    · show pending.length ≤ growCap cap pending.length
      unfold growCap
      split <;> omega
    · show ∃ k, growCap cap pending.length = cap * 2 ^ k
      unfold growCap
      split
      · exact ⟨1, by norm_num⟩
      · exact ⟨0, by norm_num⟩
  | case3 cap pending rem hrem hn ih =>
    intro hp
    set g := growCap cap pending.length with hgdef
    set n := readN g pending.length rem.length with hndef
    have hgfacts : cap ≤ g ∧ (g = cap * 2 ∨ g = cap) := by
      rw [hgdef]
      unfold growCap
      split
      · exact ⟨by omega, Or.inl rfl⟩
      · exact ⟨le_refl _, Or.inr rfl⟩
    have hn2 : n ≤ rem.length := by rw [hndef]; exact Nat.min_le_right _ _
    have hn1 : n ≤ g - pending.length := by rw [hndef]; exact Nat.min_le_left _ _
    have hplg : pending.length ≤ g := le_trans hp hgfacts.1
    have htakelen : (rem.take n).length = n := by
      rw [List.length_take]
      omega
    have hsteplen : (readChunk pending (rem.take n)).2.length ≤ g := by
      have h2 := readChunk_snd_length pending (rem.take n)
      rw [htakelen] at h2
      omega
    have ihres := ih hsteplen
    rw [readLinesBuf, dif_neg hrem]
    rw [← hgdef, ← hndef, dif_neg hn]
    refine ⟨ihres.1, ?_⟩
    obtain ⟨k, hk⟩ := ihres.2
    rcases hgfacts.2 with hg2 | hg2
    · exact ⟨k + 1, by
        show (readLinesBuf g (readChunk pending (rem.take n)).2 (rem.drop n)).2.2 = _
        rw [hk, hg2, pow_succ]
        ring⟩
    · exact ⟨k, by
        show (readLinesBuf g (readChunk pending (rem.take n)).2 (rem.drop n)).2.2 = _
        rw [hk, hg2]⟩

theorem runOps_inv (ops : List SessionOp) :
    ∀ (p : List ℕ) (c : ℕ), p.length ≤ c →
      (ops.foldl applyOp (p, c)).1.length ≤ (ops.foldl applyOp (p, c)).2
        ∧ ∃ k, (ops.foldl applyOp (p, c)).2 = c * 2 ^ k := by
  induction ops with
  | nil => intro p c hp; exact ⟨hp, 0, by norm_num⟩
  | cons op ops ih =>
    intro p c hp
    rw [List.foldl_cons]
    rcases op with data | newData
    · have hstep := readLinesBuf_inv c p data hp
      obtain ⟨h1, k2, hk2⟩ := ih (readLinesBuf c p data).2.1 (readLinesBuf c p data).2.2 hstep.1
      obtain ⟨h0, k1, hk1⟩ := hstep
      refine ⟨h1, k1 + k2, ?_⟩
      show (List.foldl applyOp ((readLinesBuf c p data).2.1, (readLinesBuf c p data).2.2) ops).2
          = c * 2 ^ (k1 + k2)
      rw [hk2, hk1, pow_add]
      ring
    · have hstep := readLinesBuf_inv c [] newData (by simp)
      obtain ⟨h1, k2, hk2⟩ := ih (readLinesBuf c [] newData).2.1 (readLinesBuf c [] newData).2.2 hstep.1
      obtain ⟨h0, k1, hk1⟩ := hstep
      refine ⟨h1, k1 + k2, ?_⟩
      show (List.foldl applyOp ((readLinesBuf c [] newData).2.1, (readLinesBuf c [] newData).2.2) ops).2
          = c * 2 ^ (k1 + k2)
      rw [hk2, hk1, pow_add]
      ring

/-- C7: a line longer than the initial buffer capacity (any capacity ≥ 1) is
still delivered whole, as exactly one untruncated, unsplit line: under the
capacity-aware reader the emitted lines (and the retained partial line)
coincide with the specification splitter for every file content, in
particular for contents whose lines exceed the capacity; the buffer grows by
doubling until the line fits. -/
theorem C7_long_line_intact (cap : ℕ) (s : List ℕ) (h : 1 ≤ cap) :
    (readLinesBuf cap [] s).1 = (splitSpec [] s).1
      ∧ (readLinesBuf cap [] s).2.1 = (splitSpec [] s).2 :=
  readLinesBuf_eq_splitSpec cap [] s h (by simp) (by simp)

theorem C7_long_line_intact_witness :
    1 ≤ 1 ∧ (readLinesBuf 1 [] [97, 98, 99, 100, 10]).1
        = (splitSpec [] [97, 98, 99, 100, 10]).1 :=
  ⟨le_refl 1, (C7_long_line_intact 1 [97, 98, 99, 100, 10] (le_refl 1)).1⟩

/-- C8: in every state reachable by any sequence of scanner invocations and
rotations, the number of valid bytes (`nbytes`) is at most the buffer's
capacity (it is non-negative by construction, being a `ℕ`), the capacity
never decreases below its initial value, and every capacity change is a
doubling: the final capacity is `cap0 * 2 ^ k` for some `k`. -/
theorem C8_buffer_invariant (cap0 : ℕ) (ops : List SessionOp) :
    (runOps cap0 ops).1.length ≤ (runOps cap0 ops).2
      ∧ cap0 ≤ (runOps cap0 ops).2
      ∧ ∃ k, (runOps cap0 ops).2 = cap0 * 2 ^ k := by
  obtain ⟨h1, k, hk⟩ := runOps_inv ops [] cap0 (by simp)
  refine ⟨h1, ?_, ⟨k, hk⟩⟩
  show cap0 ≤ (List.foldl applyOp ([], cap0) ops).2
  rw [hk]
  calc cap0 = cap0 * 1 := by ring
  _ ≤ cap0 * 2 ^ k := Nat.mul_le_mul_left _ (Nat.one_le_pow _ _ (by norm_num))

theorem runTailLoop_rename_opened (pending : List ℕ) (errv : Option GoErr)
    (w chunks : List (List ℕ)) (rest : List LoopEvent) :
    runTailLoop pending errv (.fsev 8 w (.opened chunks) :: rest)
      = ((if 0 < pending.length then [pending] else [])
            ++ (readLines [] chunks).1
            ++ (runTailLoop (readLines [] chunks).2 (some .eof) rest).1,
         (runTailLoop (readLines [] chunks).2 (some .eof) rest).2) := by
  rw [runTailLoop, if_neg (by decide), if_pos (by decide)]

/-- C2: on a rotation with old-file content "line 1\nline 2" (no trailing
terminator) and new-file content "line 3\n", whatever way the reads chunk
either file, the delivered sequence is exactly ["line 1", "line 2",
"line 3"]: the unterminated residue of the old file is flushed as one line
and precedes every line of the reopened file. -/
theorem C2_rotation_flush_order (cs1 cs2 : List (List ℕ))
    (h1 : cs1.flatten = line1B ++ [10] ++ line2B)
    (h2 : cs2.flatten = line3B ++ [10]) :
    (runTailModel cs1 [.fsev 8 [] (.opened cs2)]).1 = [line1B, line2B, line3B] := by
  have e1 := readLines_eq_splitSpec cs1 [] (by simp)
  have e2 := readLines_eq_splitSpec cs2 [] (by simp)
  rw [h1] at e1
  rw [h2] at e2
  unfold runTailModel
  rw [e1, runTailLoop_rename_opened, e2]
  decide

theorem C2_rotation_flush_order_witness :
    (([line1B ++ [10] ++ line2B] : List (List ℕ)).flatten = line1B ++ [10] ++ line2B
        ∧ ([line3B ++ [10]] : List (List ℕ)).flatten = line3B ++ [10])
      ∧ (runTailModel [line1B ++ [10] ++ line2B] [.fsev 8 [] (.opened [line3B ++ [10]])]).1
          = [line1B, line2B, line3B] :=
  ⟨⟨by simp, by simp⟩, C2_rotation_flush_order _ _ (by simp) (by simp)⟩

theorem reopenLoop_stop (opens : ℕ → Bool) (k delay : ℕ)
    (h : ¬(0 < delay ∧ delay < 30)) :
    reopenLoop opens k delay = ([], false) := by
  rw [reopenLoop, dif_neg h]

theorem reopenLoop_ok (opens : ℕ → Bool) (k delay : ℕ)
    (h : 0 < delay ∧ delay < 30) (ho : opens k = true) :
    reopenLoop opens k delay = ([], true) := by
  rw [reopenLoop, dif_pos h, if_pos ho]

theorem reopenLoop_fail (opens : ℕ → Bool) (k delay : ℕ)
    (h : 0 < delay ∧ delay < 30) (ho : opens k = false) :
    reopenLoop opens k delay
      = (delay :: (reopenLoop opens (k + 1) (delay * 2)).1,
         (reopenLoop opens (k + 1) (delay * 2)).2) := by
  rw [reopenLoop, dif_pos h, if_neg (by simp [ho])]

/-- C3 counterexample: with every reopen attempt failing, the sleeps of the
retry loop are exactly 1, 2, 4, 8, 16 seconds and the loop then gives up
(`false`): there is no sixth attempt, no 30-second sleep ever occurs, and
the retrying is bounded, contradicting the claimed unbounded delay sequence
1, 2, 4, 8, 16, 30, 30, …. -/
theorem C3_backoff_gives_up :
    reopenBackoff (fun _ => false) = ([1, 2, 4, 8, 16], false)
      ∧ ([1, 2, 4, 8, 16] : List ℕ) ≠ [1, 2, 4, 8, 16, 30] := by
  refine ⟨?_, by decide⟩
  rw [reopenBackoff,
    reopenLoop_fail _ _ _ (by norm_num) rfl,
    reopenLoop_fail _ _ _ (by norm_num) rfl,
    reopenLoop_fail _ _ _ (by norm_num) rfl,
    reopenLoop_fail _ _ _ (by norm_num) rfl,
    reopenLoop_fail _ _ _ (by norm_num) rfl,
    reopenLoop_stop _ _ _ (by norm_num)]

/-- C3 amended: the reopen loop makes at most five `openFile` attempts,
sleeping 1, 2, 4, 8, 16 seconds after the successive failures (doubling
from 1, never reaching a 30-second sleep); it stops at the first success,
and when all five attempts fail it gives up — `runTail` then terminates
with the last open error — rather than retrying for as long as the session
lives. -/
theorem C3_backoff_bounded (opens : ℕ → Bool) :
    reopenBackoff opens
      = if opens 0 = true then ([], true)
        else if opens 1 = true then ([1], true)
        else if opens 2 = true then ([1, 2], true)
        else if opens 3 = true then ([1, 2, 4], true)
        else if opens 4 = true then ([1, 2, 4, 8], true)
        else ([1, 2, 4, 8, 16], false) := by
  rw [reopenBackoff]
  by_cases h0 : opens 0 = true
  · rw [reopenLoop_ok _ _ _ (by norm_num) h0, if_pos h0]
  · rw [reopenLoop_fail _ _ _ (by norm_num) (by simpa using h0), if_neg h0]
    by_cases h1 : opens 1 = true
    · rw [reopenLoop_ok _ _ _ (by norm_num) h1, if_pos h1]
    · rw [reopenLoop_fail _ _ _ (by norm_num) (by simpa using h1), if_neg h1]
      by_cases h2 : opens 2 = true
      · rw [reopenLoop_ok _ _ _ (by norm_num) h2, if_pos h2]
      · rw [reopenLoop_fail _ _ _ (by norm_num) (by simpa using h2), if_neg h2]
        by_cases h3 : opens 3 = true
        · rw [reopenLoop_ok _ _ _ (by norm_num) h3, if_pos h3]
        · rw [reopenLoop_fail _ _ _ (by norm_num) (by simpa using h3), if_neg h3]
          by_cases h4 : opens 4 = true
          · rw [reopenLoop_ok _ _ _ (by norm_num) h4, if_pos h4]
          · rw [reopenLoop_fail _ _ _ (by norm_num) (by simpa using h4), if_neg h4,
              reopenLoop_stop _ _ _ (by norm_num)]

/-- C4 counterexample: a pure `Remove` notification (fsnotify op bits 4)
with a nonempty pending partial line emits nothing at all — no flush line,
no reopen — while the same situation under a `Rename` notification (op
bits 8) flushes the pending bytes; so a remove notification does not
trigger rotation handling as a rename does. -/
theorem C4_remove_not_rotated :
    (runTailLoop [120] none [.fsev 4 [] (.opened [])]).1 = []
      ∧ (runTailLoop [120] none [.fsev 8 [] (.opened [])]).1 = [[120]] := by decide

/-- C4 amended: only notifications whose operation bits contain `Rename`
(bit 8, and not `Write`, bit 2) enter the rotation/flush behaviour; a
`Remove` notification (bit 4) matches neither branch of the dispatch and is
ignored entirely — the session neither flushes the pending line, nor closes
the file, nor reopens, and simply continues with the next event. -/
theorem C4_remove_event_ignored (pending : List ℕ) (errv : Option GoErr)
    (w : List (List ℕ)) (r : ReopenRes) (rest : List LoopEvent) :
    runTailLoop pending errv (.fsev 4 w r :: rest) = runTailLoop pending errv rest := by
  rcases r with c | chunks <;>
    rw [runTailLoop, if_neg (by decide), if_neg (by decide)]

/-- C5: evaluation of the worker at the failing input.  The session drains
the file content "a\n", handles one `Write` notification whose `readLines`
reads "b\n" up to `io.EOF` (leaving the local variable `err` holding
`io.EOF`), and then the consumer closes the session: the `select` observes
`t.done`, the worker returns, and the deferred handler finds `err != nil`
and sends `io.EOF` on the `Error` channel — so a consumer-initiated close
is reported as an error, contradicting the claim. -/
theorem C5_close_after_write_emits_eof :
    runTailModel [[97, 10]] [.fsev 2 [[98, 10]] (.opened []), .done]
      = ([[97], [98]], some GoErr.eof) := by decide

/-- C6 counterexample: when `t.watcher.Errors` yields the non-nil value
`err 7`, the session terminates and the deferred handler sends exactly that
value on the `Error` channel — the error output is not empty, contradicting
the claim that the value is not forwarded. -/
theorem C6_watch_error_not_dropped :
    (runTailLoop [] none [.werr (some (GoErr.err 7))]).2 = some (GoErr.err 7)
      ∧ some (GoErr.err 7) ≠ (none : Option GoErr) := by decide

/-- C6 amended: when the watch error feed yields a value, the session
terminates immediately and forwards exactly that value as the session's
error (`case err, ok = <-t.watcher.Errors` assigns the received value to
the outer `err`, and the deferred handler sends any non-nil `err` on
`t.Error`); only when the feed yields nil — e.g. the channel is closed —
does the session close with an empty error output. -/
theorem C6_watch_error_forwarded (pending : List ℕ) (errv : Option GoErr)
    (e : Option GoErr) (rest : List LoopEvent) :
    runTailLoop pending errv (.werr e :: rest) = ([], e) := rfl

/-- C9: Close is idempotent — for any session state, a second Close is a
no-op: the state is unchanged (in particular the cancel signal stays set
and the watcher is not released a second time), and IsClosed reports true
from the first Close on. -/
theorem C9_close_idempotent (t : Tail) :
    Tail.Close (Tail.Close t) = Tail.Close t
      ∧ (Tail.Close t).IsClosed = true
      ∧ (Tail.Close (Tail.Close t)).watcherCloseN = (Tail.Close t).watcherCloseN := by
  rcases t with ⟨d, w, n⟩
  cases d <;> simp [Tail.Close, Tail.IsClosed]

/-- C10: the synthetic flush line emitted at rotation is the residual
buffer verbatim — old-file content "x\r" without a newline is flushed as
the two bytes `x` `\r`, the trailing carriage return not stripped; by
contrast the regular line scan of "x\r\n" strips it and emits just `x`. -/
theorem C10_flush_line_verbatim :
    (runTailModel [[120, 13]] [.fsev 8 [] (.opened [])]).1 = [[120, 13]]
      ∧ (runTailModel [[120, 13, 10]] []).1 = [[120]] := by decide
